import Mathlib

/-!
Shallow embedding of the ingestion-clean-upsert pipeline of `src/ingest.py`
(NESO generation-mix ingester): query records arrive as loosely typed JSON
mappings, are cleaned into typed observations (`to_dataframe_clean`), and are
merged into a timestamp-keyed SQLite table by an INSERT ... ON CONFLICT upsert
(`build_upsert_sql` + `executemany` + `commit` in `main`).

Modelling conventions:
* A raw JSON field value is `RawValue` (null / number / string).
* `pd.to_datetime(..., utc=True, errors="coerce")` is modelled for the
  canonical `YYYY-MM-DDTHH:MM:SSZ` text form the API serves: a valid canonical
  string parses to a `Nat` mixed-radix encoding of its six fields (which is
  order-isomorphic to both the chronological order and the lexicographic order
  of canonical strings, and injective), anything else coerces to the missing
  sentinel `none` (NaT).  `strftime` back to the canonical text in `build_rows`
  is a bijection on the valid range, so the store is keyed by the encoding.
* `pd.to_numeric(..., errors="coerce")` is modelled for the string forms its
  parser accepts: optionally signed decimal literals with optional fractional
  part and optional scientific-notation exponent (exact values, as `Dec`), and
  the non-finite spellings "inf"/"infinity" (any case, optionally signed),
  which parse to ±Inf and are stored by SQLite as non-finite REALs.  A failed
  parse — and "nan", which yields the same NaN float every failure coerces
  to — becomes the missing sentinel `none` (NaN is the one value the sqlite3
  binding stores as NULL).  Surrounding whitespace is trimmed as the parser
  does.
* The SQLite table is a list of keyed rows; the `ON CONFLICT(DATETIME) DO
  UPDATE SET` statement either rewrites the measurement values of the rows
  matching the key or appends a fresh row.
* `cur.executemany` + `con.commit()` are modelled by running the per-row
  upserts on a working copy and publishing it only on success; an error before
  `commit` leaves the visible store untouched (the implicit sqlite3
  transaction is rolled back when the connection is abandoned uncommitted).
-/

deriving instance DecidableEq for Except

namespace Ingest

/-- An exact finite decimal number `mant / 10 ^ exp`, the value domain of the
parsed measurements (decimal literals, as `pd.to_numeric` reads them; every
such value is a finite real). The representation is kept canonical — trailing
zero digits of the mantissa are traded against the exponent — so equality of
representations is equality of the denoted numbers. -/
structure Dec where
  mant : Int
  exp : Nat
deriving DecidableEq, Repr

/-- Strip factors of ten from the mantissa into the exponent budget. -/
def stripZeros : Int → Nat → Int × Nat
  | m, 0 => (m, 0)
  | m, e + 1 => if m % 10 = 0 then stripZeros (m / 10) e else (m, e + 1)

/-- Canonical decimal with value `m / 10 ^ e`. -/
def Dec.make (m : Int) (e : Nat) : Dec :=
  ⟨(stripZeros m e).1, (stripZeros m e).2⟩

/-- Negation (canonical forms are closed under it). -/
def Dec.negate (d : Dec) : Dec := ⟨-d.mant, d.exp⟩

/-- A parsed numeric cell value: an exact finite decimal, or one of the two
non-finite values `pd.to_numeric` produces for the infinity spellings (SQLite
stores these as non-finite REALs; NaN is not a `NumVal` — it is the missing
sentinel, stored as NULL). -/
inductive NumVal where
  | fin : Dec → NumVal
  | posInf : NumVal
  | negInf : NumVal
deriving DecidableEq, Repr

/-- Numeric negation on parsed values. -/
def NumVal.negate : NumVal → NumVal
  | .fin d => .fin d.negate
  | .posInf => .negInf
  | .negInf => .posInf

/-- Whether a parsed value is negative (negative infinity included). -/
def NumVal.isNeg : NumVal → Bool
  | .fin d => decide (d.mant < 0)
  | .posInf => false
  | .negInf => true

/-- A raw JSON field value as delivered inside one record of the API reply. -/
inductive RawValue where
  | null : RawValue
  | num : Dec → RawValue
  | str : String → RawValue
deriving DecidableEq, Repr

/-- One raw record: a field-name-to-value mapping, as a key/value list. -/
abbrev RawRecord := List (String × RawValue)

/-- The fixed, order-significant column list of `ingest.py` (`cols`). -/
def cols : List String :=
  ["DATETIME", "GAS", "COAL", "NUCLEAR", "WIND", "WIND_EMB", "HYDRO",
   "IMPORTS", "BIOMASS", "OTHER", "SOLAR", "STORAGE",
   "GENERATION", "CARBON_INTENSITY"]

/-- Numeric value of a two-digit pair of characters. -/
def digit2 (a b : Char) : Nat := (a.toNat - 48) * 10 + (b.toNat - 48)

/-- Mixed-radix encoding of a UTC instant `(y, mo, d, h, mi, s)`; strictly
monotone with respect to lexicographic order of in-range field tuples, hence
order-isomorphic to chronological order on canonical timestamps. -/
def dtEncode (y mo d h mi s : Nat) : Nat :=
  ((((y * 12 + (mo - 1)) * 31 + (d - 1)) * 24 + h) * 60 + mi) * 60 + s

/-- Parse a canonical `YYYY-MM-DDTHH:MM:SSZ` string to its instant encoding;
any other string is a parse failure (`pd.to_datetime` with `errors="coerce"`
returns NaT, modelled as `none`). -/
def parseDatetimeZ (s : String) : Option Nat :=
  match s.toList with
  | [y1, y2, y3, y4, c1, m1, m2, c2, d1, d2, ct, h1, h2, c3, n1, n2, c4, s1, s2, cz] =>
    if ([y1, y2, y3, y4, m1, m2, d1, d2, h1, h2, n1, n2, s1, s2].all Char.isDigit
        && c1 == '-' && c2 == '-' && ct == 'T' && c3 == ':' && c4 == ':' && cz == 'Z') then
      let y := digit2 y1 y2 * 100 + digit2 y3 y4
      let mo := digit2 m1 m2
      let d := digit2 d1 d2
      let h := digit2 h1 h2
      let mi := digit2 n1 n2
      let se := digit2 s1 s2
      if 1 ≤ mo ∧ mo ≤ 12 ∧ 1 ≤ d ∧ d ≤ 31 ∧ h ≤ 23 ∧ mi ≤ 59 ∧ se ≤ 59 then
        some (dtEncode y mo d h mi se)
      else none
    else none
  | _ => none

/-- Value of a digit list read in base 10. -/
def digitsVal (ds : List Char) : Nat := ds.foldl (fun n c => n * 10 + (c.toNat - 48)) 0

/-- Lowercased, whitespace-trimmed character stream of one raw string cell
(the numeric parser skips surrounding whitespace and reads the infinity and
exponent spellings case-insensitively). -/
def normChars (s : String) : List Char :=
  (((s.toList.map Char.toLower).dropWhile Char.isWhitespace).reverse.dropWhile
    Char.isWhitespace).reverse

/-- Parse the optional scientific-notation exponent tail (already lowercased:
an 'e', an optional sign, then at least one digit); the flag is the sign of
the power of ten. An empty tail is exponent zero; anything else fails. -/
def parseExponent : List Char → Option (Bool × Nat)
  | [] => some (true, 0)
  | 'e' :: rest =>
    match rest with
    | '+' :: ds => if ¬ ds.isEmpty ∧ ds.all Char.isDigit then some (true, digitsVal ds) else none
    | '-' :: ds => if ¬ ds.isEmpty ∧ ds.all Char.isDigit then some (false, digitsVal ds) else none
    | ds => if ¬ ds.isEmpty ∧ ds.all Char.isDigit then some (true, digitsVal ds) else none
  | _ => none

/-- Parse an unsigned numeric literal the way the `pd.to_numeric` string
parser reads one: "inf"/"infinity" give positive infinity; otherwise digits
with an optional fractional part (at least one digit on one side of the dot)
and an optional exponent give an exact finite decimal; anything else —
including "nan", which yields the same NaN float every failed coercion does —
is no value. -/
def parseUnsignedNumeric (cs : List Char) : Option NumVal :=
  if cs = ['i', 'n', 'f'] ∨ cs = ['i', 'n', 'f', 'i', 'n', 'i', 't', 'y'] then
    some .posInf
  else
    let intPart := cs.takeWhile Char.isDigit
    let rest₁ := cs.dropWhile Char.isDigit
    let frac :=
      match rest₁ with
      | '.' :: tail => tail.takeWhile Char.isDigit
      | _ => []
    let rest₂ :=
      match rest₁ with
      | '.' :: tail => tail.dropWhile Char.isDigit
      | _ => rest₁
    if intPart.isEmpty ∧ frac.isEmpty then none
    else
      match parseExponent rest₂ with
      | none => none
      | some (epos, e) =>
        let mant0 := digitsVal intPart * 10 ^ frac.length + digitsVal frac
        if epos then
          some (.fin (Dec.make (Int.ofNat (mant0 * 10 ^ e)) frac.length))
        else
          some (.fin (Dec.make (Int.ofNat mant0) (frac.length + e)))

/-- Parse a signed numeric literal into its parsed value (finite exact
decimal or ±Inf). -/
def parseDecimal (cs : List Char) : Option NumVal :=
  match cs with
  | '-' :: rest => (parseUnsignedNumeric rest).map NumVal.negate
  | '+' :: rest => parseUnsignedNumeric rest
  | _ => parseUnsignedNumeric cs

/-- Numeric coercion of one raw field, as `pd.to_numeric(..., errors="coerce")`
acts on string cells: parse failures (and NaN) become the missing value,
infinity spellings become non-finite values. -/
def toNumeric (v : RawValue) : Option NumVal :=
  match v with
  | .null => none
  | .num q => some (.fin q)
  | .str s => parseDecimal (normChars s)

/-- Datetime coercion of one raw field for the canonical text form
(`pd.to_datetime(..., utc=True, errors="coerce")`): failures become NaT. -/
def toDatetime (v : RawValue) : Option Nat :=
  match v with
  | .str s => parseDatetimeZ s
  | _ => none

/-- Whether the column `c` exists in the DataFrame built from `records`
(`pd.DataFrame.from_records` derives the column set from the records' keys,
so an empty record list yields no columns at all). -/
def hasColumn (records : List RawRecord) (c : String) : Bool :=
  records.any (fun r => r.any (fun p => p.1 == c))

/-- Field lookup in one raw record; a key absent from this record (but present
in another, so that the column exists) reads as NaN / null. -/
def lookupField (r : RawRecord) (c : String) : RawValue :=
  match r.find? (fun p => p.1 == c) with
  | some p => p.2
  | none => .null

/-- The thirteen measurement columns of one observation, each an optional
finite decimal (NULL in SQLite when missing). -/
structure Meas where
  gas : Option NumVal
  coal : Option NumVal
  nuclear : Option NumVal
  wind : Option NumVal
  wind_emb : Option NumVal
  hydro : Option NumVal
  importsVal : Option NumVal
  biomass : Option NumVal
  otherVal : Option NumVal
  solar : Option NumVal
  storageVal : Option NumVal
  generation : Option NumVal
  carbon_intensity : Option NumVal
deriving DecidableEq, Repr

/-- Numeric coercion of the thirteen measurement columns of one raw record
(the `pd.to_numeric` loop over `other_cols` in `to_dataframe_clean`). -/
def parseMeas (r : RawRecord) : Meas where
  gas := toNumeric (lookupField r "GAS")
  coal := toNumeric (lookupField r "COAL")
  nuclear := toNumeric (lookupField r "NUCLEAR")
  wind := toNumeric (lookupField r "WIND")
  wind_emb := toNumeric (lookupField r "WIND_EMB")
  hydro := toNumeric (lookupField r "HYDRO")
  importsVal := toNumeric (lookupField r "IMPORTS")
  biomass := toNumeric (lookupField r "BIOMASS")
  otherVal := toNumeric (lookupField r "OTHER")
  solar := toNumeric (lookupField r "SOLAR")
  storageVal := toNumeric (lookupField r "STORAGE")
  generation := toNumeric (lookupField r "GENERATION")
  carbon_intensity := toNumeric (lookupField r "CARBON_INTENSITY")

/-- One cleaned observation: a parsed timestamp key and the thirteen
measurement values. -/
structure CleanRow where
  dt : Nat
  vals : Meas
deriving DecidableEq, Repr

/-- Parse one raw record into a cleaned observation; `none` exactly when the
`DATETIME` field does not parse (the row is then dropped by
`dropna(subset=["DATETIME"])`). -/
def parseRow (r : RawRecord) : Option CleanRow :=
  match toDatetime (lookupField r "DATETIME") with
  | some t => some ⟨t, parseMeas r⟩
  | none => none

/-- The key of the cleaned observation a raw record would produce, if any. -/
def parseRowKey (r : RawRecord) : Option Nat := toDatetime (lookupField r "DATETIME")

/-- Timestamp deduplication keeping the first occurrence in arrival order
(`drop_duplicates(subset=["DATETIME"])` with the pandas default
`keep="first"`); `seen` accumulates the keys already kept. -/
def dedupFirst (seen : List Nat) : List CleanRow → List CleanRow
  | [] => []
  | row :: rest =>
    if seen.contains row.dt then dedupFirst seen rest
    else row :: dedupFirst (row.dt :: seen) rest

/-- Comparison used by `sort_values("DATETIME")` (a stable sort by key). -/
def rowLe (a b : CleanRow) : Bool := decide (a.dt ≤ b.dt)

/-- Insert one row into a key-sorted list, before the first row it compares
at-most-equal to (a stable insertion). -/
def insertByDt (row : CleanRow) : List CleanRow → List CleanRow
  | [] => [row]
  | a :: rest => if rowLe row a then row :: a :: rest else a :: insertByDt row rest

/-- The `sort_values("DATETIME")` stage: a stable sort ascending by the parsed
timestamp key. -/
def sortByDt (l : List CleanRow) : List CleanRow := l.foldr insertByDt []

/-- Error taxonomy of one run. -/
inductive RunError where
  | systemExitHTTP : Nat → RunError
  | keyError : String → RunError
  | storageError : RunError
deriving DecidableEq, Repr

/-- The cleaning stage `to_dataframe_clean(records, cols)`: build the frame and
project onto `cols` (KeyError when a requested column does not exist, which is
every column when `records` is empty), coerce `DATETIME` and the measurements,
drop rows with unparseable timestamps, deduplicate keeping the first
occurrence, and sort ascending by timestamp. -/
def to_dataframe_clean (records : List RawRecord) : Except RunError (List CleanRow) :=
  if cols.all (hasColumn records) then
    .ok (sortByDt (dedupFirst [] (records.filterMap parseRow)))
  else
    .error (.keyError "columns not in index")

/-- Modelled from the spec: the repository's stricter near-duplicate variant of
`to_dataframe_clean` (the spec's §4.4 step 5, not present under `src/`)
additionally drops every row in which any measurement is negative, before
deduplication. `rowHasNegative` reports such a row. -/
def rowHasNegative (m : Meas) : Bool :=
  [m.gas, m.coal, m.nuclear, m.wind, m.wind_emb, m.hydro, m.importsVal,
   m.biomass, m.otherVal, m.solar, m.storageVal, m.generation,
   m.carbon_intensity].any
    (fun v => match v with | some q => q.isNeg | none => false)

/-- Modelled from the spec: the stricter cleaning variant (§4.4 including the
optional step 5) — identical to `to_dataframe_clean` except that rows with a
negative measurement are discarded whole. -/
def to_dataframe_clean_strict (records : List RawRecord) : Except RunError (List CleanRow) :=
  if cols.all (hasColumn records) then
    .ok (sortByDt (dedupFirst []
      ((records.filterMap parseRow).filter (fun row => !rowHasNegative row.vals))))
  else
    .error (.keyError "columns not in index")

/-- One stored table row of `mix`: the TEXT primary key (as its instant
encoding) and the thirteen REAL-or-NULL measurement columns. -/
structure DbRow where
  key : Nat
  vals : Meas
deriving DecidableEq, Repr

/-- The SQLite table `mix`: a list of rows. -/
abbrev Store := List DbRow

/-- The `build_rows` stage: serialize each cleaned observation back to the
key used in the VALUES tuple (`strftime` of the parsed timestamp reproduces
the canonical text, a bijection on the valid range, so the key is kept as the
instant encoding). -/
def build_rows (out : List CleanRow) : List DbRow :=
  out.map (fun row => ⟨row.dt, row.vals⟩)

/-- One execution of the statement of `build_upsert_sql`:
`INSERT INTO mix (...) VALUES (...) ON CONFLICT(DATETIME) DO UPDATE SET` every
measurement column to the excluded (incoming) value — if the key is present
the matching rows get all thirteen values rewritten, otherwise the new row is
appended. `updateFun` is the DO UPDATE arm applied to one stored row. -/
def updateFun (r : DbRow) (row : DbRow) : DbRow :=
  if row.key == r.key then ⟨row.key, r.vals⟩ else row

/-- One execution of the upsert statement against the table (insert, or
rewrite the matching rows on key conflict). -/
def upsertRow (s : Store) (r : DbRow) : Store :=
  if s.any (fun row => row.key == r.key) then s.map (updateFun r)
  else s ++ [r]

/-- The whole upsert batch, applied row by row in order (`executemany`). -/
def upsertBatch (s : Store) (rows : List DbRow) : Store :=
  rows.foldl upsertRow s

/-- The keys column of the store. -/
def keysOf (s : Store) : List Nat := s.map (fun row => row.key)

/-- Row lookup by primary key. -/
def findRow (s : Store) (k : Nat) : Option DbRow :=
  s.find? (fun row => row.key == k)

/-- Primary-key uniqueness invariant of the table. -/
def KeysNodup (s : Store) : Prop := (keysOf s).Nodup

instance (s : Store) : Decidable (KeysNodup s) := List.nodupDecidable (keysOf s)

/-- The `cur.executemany(upsert_sql, rows)` call on the uncommitted working
state: apply the upserts in order, failing at the first row the injected
storage fault `failAt` hits. -/
def executemanyUpsert (failAt : DbRow → Bool) (s : Store) :
    List DbRow → Except RunError Store
  | [] => .ok s
  | r :: rest =>
    if failAt r then .error .storageError
    else executemanyUpsert failAt (upsertRow s r) rest

/-- The write phase of `main`: `executemany` inside the implicit sqlite3
transaction, then `con.commit()`. Only a completed batch is published to the
visible store; when the batch raises, `commit` is never reached and the
transaction rolls back, so the visible store stays at its pre-call state and
no row count is reported. -/
def commitRun (failAt : DbRow → Bool) (s : Store) (rows : List DbRow) :
    Store × Option Nat :=
  match executemanyUpsert failAt s rows with
  | .ok working => (working, some rows.length)
  | .error _ => (s, none)

/-- The remote reply as `fetch_records_from_api` sees it: HTTP status and the
decoded JSON envelope (`success` flag, and the `result.records` list when the
path exists). -/
structure ApiResponse where
  status : Nat
  success : Bool
  resultRecords : Option (List RawRecord)

/-- The fetch stage `fetch_records_from_api`: `raise SystemExit(f"HTTP {code}")`
on any non-200 status, otherwise read `resp.json()["result"]["records"]`
directly (a KeyError when the path is absent; the `success` flag is never
inspected). An empty `records` list is returned as-is. -/
def fetch_records_from_api (resp : ApiResponse) : Except RunError (List RawRecord) :=
  if resp.status ≠ 200 then .error (.systemExitHTTP resp.status)
  else
    match resp.resultRecords with
    | some records => .ok records
    | none => .error (.keyError "result records")

/-- The fetch-clean-upsert sequencing of `main` from the remote reply on:
any error raised before the write reaches the process boundary with the store
untouched; a successful run commits the upsert batch and reports
`len(rows)`. -/
def runIngest (resp : ApiResponse) (s : Store) : Store × Except RunError Nat :=
  match fetch_records_from_api resp with
  | .error e => (s, .error e)
  | .ok records =>
    match to_dataframe_clean records with
    | .error e => (s, .error e)
    | .ok out => (upsertBatch s (build_rows out), .ok (build_rows out).length)

/-- Last value carried by `rows` for key `k`, if any (the value the key holds
after the whole batch has been applied). -/
def lastVal (rows : List DbRow) (k : Nat) : Option Meas :=
  match rows with
  | [] => none
  | r :: rest =>
    match lastVal rest k with
    | some v => some v
    | none => if r.key == k then some r.vals else none

/-- Rewrite one stored row to the last value its key takes in the batch, when
the batch mentions the key at all. -/
def applyLast (rows : List DbRow) (row : DbRow) : DbRow :=
  match lastVal rows row.key with
  | some v => ⟨row.key, v⟩
  | none => row

/-! ### Lemmas about the store and the upsert -/

theorem upsertBatch_cons (s : Store) (r : DbRow) (rest : List DbRow) :
    upsertBatch s (r :: rest) = upsertBatch (upsertRow s r) rest := rfl

theorem updateFun_key (r row : DbRow) : (updateFun r row).key = row.key := by
  unfold updateFun
  by_cases h : row.key == r.key
  · rw [if_pos h]
  · rw [if_neg h]

theorem keysOf_map_updateFun (s : Store) (r : DbRow) :
    keysOf (s.map (updateFun r)) = keysOf s := by
  unfold keysOf
  rw [List.map_map]
  exact List.map_congr_left (fun a _ => updateFun_key r a)

theorem any_key_iff (s : Store) (k : Nat) :
    (s.any (fun row => row.key == k) = true) ↔ k ∈ keysOf s := by
  rw [List.any_eq_true]
  unfold keysOf
  rw [List.mem_map]
  constructor
  · rintro ⟨x, hx, hb⟩
    exact ⟨x, hx, by simpa using hb⟩
  · rintro ⟨x, hx, hb⟩
    exact ⟨x, hx, by simp [hb]⟩

theorem keysOf_append_one (s : Store) (r : DbRow) :
    keysOf (s ++ [r]) = keysOf s ++ [r.key] := by
  simp [keysOf]

theorem mem_keysOf_upsertRow (s : Store) (r : DbRow) :
    r.key ∈ keysOf (upsertRow s r) := by
  unfold upsertRow
  by_cases h : s.any (fun row => row.key == r.key) = true
  · rw [if_pos h, keysOf_map_updateFun]
    exact (any_key_iff s r.key).mp h
  · rw [if_neg h, keysOf_append_one]
    exact List.mem_append_right _ (List.mem_singleton.mpr rfl)

theorem keysOf_subset_upsertRow (s : Store) (r : DbRow) :
    keysOf s ⊆ keysOf (upsertRow s r) := by
  unfold upsertRow
  by_cases h : s.any (fun row => row.key == r.key) = true
  · rw [if_pos h, keysOf_map_updateFun]
    exact fun _ hx => hx
  · rw [if_neg h, keysOf_append_one]
    exact List.subset_append_left _ _

theorem keysOf_subset_upsertBatch (rows : List DbRow) (s : Store) :
    keysOf s ⊆ keysOf (upsertBatch s rows) := by
  induction rows generalizing s with
  | nil => exact fun _ hx => hx
  | cons r rest ih =>
    rw [upsertBatch_cons]
    exact fun x hx => ih (upsertRow s r) (keysOf_subset_upsertRow s r hx)

theorem batchKeys_mem_upsertBatch (rows : List DbRow) (s : Store) {r : DbRow}
    (h : r ∈ rows) : r.key ∈ keysOf (upsertBatch s rows) := by
  induction rows generalizing s with
  | nil => cases h
  | cons a rest ih =>
    rw [upsertBatch_cons]
    rcases List.mem_cons.mp h with h1 | h2
    · subst h1
      exact keysOf_subset_upsertBatch rest (upsertRow s r) (mem_keysOf_upsertRow s r)
    · exact ih (upsertRow s a) h2

theorem vals_of_mem_upsertRow {s : Store} {r row : DbRow}
    (hm : row ∈ upsertRow s r) (hk : row.key = r.key) : row.vals = r.vals := by
  unfold upsertRow at hm
  by_cases h : s.any (fun q => q.key == r.key) = true
  · rw [if_pos h] at hm
    rcases List.mem_map.mp hm with ⟨row₀, _, heq⟩
    unfold updateFun at heq
    by_cases h0 : row₀.key == r.key
    · rw [if_pos h0] at heq
      rw [← heq]
    · rw [if_neg h0] at heq
      rw [← heq] at hk
      exact absurd hk (by simpa using h0)
  · rw [if_neg h] at hm
    rcases List.mem_append.mp hm with h1 | h2
    · exact absurd (List.any_eq_true.mpr ⟨row, h1, by simp [hk]⟩) h
    · rw [List.mem_singleton.mp h2]

theorem mem_of_mem_upsertRow_ne {s : Store} {r row : DbRow}
    (hm : row ∈ upsertRow s r) (hk : row.key ≠ r.key) : row ∈ s := by
  unfold upsertRow at hm
  by_cases h : s.any (fun q => q.key == r.key) = true
  · rw [if_pos h] at hm
    rcases List.mem_map.mp hm with ⟨row₀, hmem, heq⟩
    unfold updateFun at heq
    by_cases h0 : row₀.key == r.key
    · have : row.key = r.key := by
        rw [if_pos h0] at heq
        rw [← heq]
        simpa using h0
      exact absurd this hk
    · rw [if_neg h0] at heq
      rw [heq] at hmem
      exact hmem
  · rw [if_neg h] at hm
    rcases List.mem_append.mp hm with h1 | h2
    · exact h1
    · rw [List.mem_singleton.mp h2] at hk
      exact absurd rfl hk

theorem mem_of_mem_upsertBatch_ne (rows : List DbRow) {s : Store} {row : DbRow}
    (hm : row ∈ upsertBatch s rows) (hk : ∀ r ∈ rows, r.key ≠ row.key) :
    row ∈ s := by
  induction rows generalizing s with
  | nil => exact hm
  | cons a rest ih =>
    rw [upsertBatch_cons] at hm
    have h1 : row ∈ upsertRow s a :=
      ih hm (fun r hr => hk r (List.mem_cons_of_mem a hr))
    exact mem_of_mem_upsertRow_ne h1
      (fun hcontra => hk a (List.mem_cons_self a rest) hcontra.symm)

theorem lastVal_cons (a : DbRow) (rest : List DbRow) (k : Nat) :
    lastVal (a :: rest) k =
      match lastVal rest k with
      | some v => some v
      | none => if a.key == k then some a.vals else none := rfl

theorem lastVal_eq_none_iff (rows : List DbRow) (k : Nat) :
    lastVal rows k = none ↔ ∀ r ∈ rows, r.key ≠ k := by
  induction rows with
  | nil => simp [lastVal]
  | cons a rest ih =>
    rw [lastVal_cons]
    cases hl : lastVal rest k with
    | some v =>
      simp only [hl]
      constructor
      · intro hcontra
        cases hcontra
      · intro hall
        have hnone : lastVal rest k = none :=
          ih.mpr (fun r hr => hall r (List.mem_cons_of_mem a hr))
        rw [hnone] at hl
        cases hl
    | none =>
      simp only [hl]
      by_cases hb : a.key == k
      · rw [if_pos hb]
        constructor
        · intro hcontra
          cases hcontra
        · intro hall
          exact absurd (by simpa using hb) (hall a (List.mem_cons_self a rest))
      · rw [if_neg hb]
        constructor
        · intro _ r hr
          rcases List.mem_cons.mp hr with h1 | h2
          · subst h1
            simpa using hb
          · exact (ih.mp hl) r h2
        · intro _
          rfl

theorem lastVal_isSome_of_mem {rows : List DbRow} {r : DbRow} (h : r ∈ rows) :
    lastVal rows r.key ≠ none := by
  intro hnone
  exact (lastVal_eq_none_iff rows r.key).mp hnone r h rfl

theorem applyLast_nil (row : DbRow) : applyLast [] row = row := rfl

theorem applyLast_cons_updateFun (r : DbRow) (rest : List DbRow) (row : DbRow) :
    applyLast rest (updateFun r row) = applyLast (r :: rest) row := by
  have hkey : (updateFun r row).key = row.key := updateFun_key r row
  unfold applyLast
  rw [hkey, lastVal_cons]
  cases hl : lastVal rest row.key with
  | some v => simp only [hl]
  | none =>
    simp only [hl]
    by_cases hb : (r.key == row.key) = true
    · have heq : row.key = r.key := (beq_iff_eq.mp hb).symm
      rw [if_pos hb]
      unfold updateFun
      rw [if_pos (beq_iff_eq.mpr heq)]
    · have hne : row.key ≠ r.key := fun hc => hb (beq_iff_eq.mpr hc.symm)
      rw [if_neg hb]
      unfold updateFun
      rw [if_neg (by simpa using hne)]

theorem upsertBatch_eq_map_applyLast (rows : List DbRow) (s : Store)
    (h : ∀ r ∈ rows, r.key ∈ keysOf s) :
    upsertBatch s rows = s.map (applyLast rows) := by
  induction rows generalizing s with
  | nil =>
    show s = s.map (applyLast [])
    rw [List.map_congr_left (fun a _ => applyLast_nil a)]
    simp
  | cons r rest ih =>
    rw [upsertBatch_cons]
    have hr : r.key ∈ keysOf s := h r (List.mem_cons_self r rest)
    have hup : upsertRow s r = s.map (updateFun r) := by
      unfold upsertRow
      rw [if_pos ((any_key_iff s r.key).mpr hr)]
    rw [hup]
    have hrest : ∀ q ∈ rest, q.key ∈ keysOf (s.map (updateFun r)) := by
      intro q hq
      rw [show keysOf (s.map (updateFun r)) = keysOf s from keysOf_map_updateFun s r]
      exact h q (List.mem_cons_of_mem r hq)
    rw [ih (s.map (updateFun r)) hrest, List.map_map]
    exact List.map_congr_left (fun a _ => applyLast_cons_updateFun r rest a)

theorem vals_eq_lastVal_of_mem_upsertBatch :
    ∀ (rows : List DbRow) (s : Store) (row : DbRow),
      row ∈ upsertBatch s rows → ∀ v, lastVal rows row.key = some v →
      row.vals = v := by
  intro rows
  induction rows with
  | nil =>
    intro s row _ v hv
    cases hv
  | cons r rest ih =>
    intro s row hm v hv
    rw [upsertBatch_cons] at hm
    rw [lastVal_cons] at hv
    cases hl : lastVal rest row.key with
    | some v' =>
      rw [hl] at hv
      simp only at hv
      cases hv
      exact ih (upsertRow s r) row hm v hl
    | none =>
      rw [hl] at hv
      simp only at hv
      by_cases hb : r.key == row.key
      · rw [if_pos hb] at hv
        cases hv
        have hnotin : ∀ q ∈ rest, q.key ≠ row.key :=
          (lastVal_eq_none_iff rest row.key).mp hl
        have hmem : row ∈ upsertRow s r := mem_of_mem_upsertBatch_ne rest hm hnotin
        exact vals_of_mem_upsertRow hmem (beq_iff_eq.mp hb).symm
      · rw [if_neg hb] at hv
        cases hv

theorem upsertBatch_idem (s : Store) (rows : List DbRow) :
    upsertBatch (upsertBatch s rows) rows = upsertBatch s rows := by
  have hkeys : ∀ r ∈ rows, r.key ∈ keysOf (upsertBatch s rows) :=
    fun r hr => batchKeys_mem_upsertBatch rows s hr
  rw [upsertBatch_eq_map_applyLast rows (upsertBatch s rows) hkeys]
  have hfix : ∀ row ∈ upsertBatch s rows, applyLast rows row = row := by
    intro row hrow
    unfold applyLast
    cases hl : lastVal rows row.key with
    | none => rfl
    | some v =>
      have hvals : row.vals = v :=
        vals_eq_lastVal_of_mem_upsertBatch rows s row hrow v hl
      rw [← hvals]
  rw [List.map_congr_left hfix]
  simp

theorem findRow_cons (a : DbRow) (rest : List DbRow) (k : Nat) :
    findRow (a :: rest) k = if a.key == k then some a else findRow rest k := by
  unfold findRow
  cases h : a.key == k with
  | true => simp [List.find?_cons, h]
  | false => simp [List.find?_cons, h]

theorem findRow_map_updateFun (s : Store) (r : DbRow) (k : Nat) (h : r.key ≠ k) :
    findRow (s.map (updateFun r)) k = findRow s k := by
  induction s with
  | nil => rfl
  | cons a rest ih =>
    rw [List.map_cons, findRow_cons, findRow_cons, updateFun_key]
    by_cases hb : (a.key == k) = true
    · rw [if_pos hb, if_pos hb]
      have hne : a.key ≠ r.key := fun hc => h (hc ▸ beq_iff_eq.mp hb)
      unfold updateFun
      rw [if_neg (by simpa using hne)]
    · rw [if_neg hb, if_neg hb]
      exact ih

theorem findRow_upsertRow_ne (s : Store) (r : DbRow) (k : Nat) (h : r.key ≠ k) :
    findRow (upsertRow s r) k = findRow s k := by
  unfold upsertRow
  by_cases ha : s.any (fun row => row.key == r.key) = true
  · rw [if_pos ha]
    exact findRow_map_updateFun s r k h
  · rw [if_neg ha]
    unfold findRow
    rw [List.find?_append]
    have hone : List.find? (fun row => row.key == k) [r] = none := by
      have hb : (r.key == k) = false := beq_eq_false_iff_ne.mpr h
      simp [List.find?_cons, hb]
    rw [hone, Option.or_none]

theorem findRow_upsertBatch_ne :
    ∀ (rows : List DbRow) (s : Store) (k : Nat), (∀ r ∈ rows, r.key ≠ k) →
      findRow (upsertBatch s rows) k = findRow s k := by
  intro rows
  induction rows with
  | nil =>
    intro s k _
    rfl
  | cons r rest ih =>
    intro s k hk
    rw [upsertBatch_cons,
      ih (upsertRow s r) k (fun q hq => hk q (List.mem_cons_of_mem r hq))]
    exact findRow_upsertRow_ne s r k (hk r (List.mem_cons_self r rest))

theorem filter_key_map_updateFun (s : Store) (r : DbRow) (k : Nat) (h : r.key ≠ k) :
    (s.map (updateFun r)).filter (fun row => row.key == k) =
      s.filter (fun row => row.key == k) := by
  induction s with
  | nil => rfl
  | cons a rest ih =>
    rw [List.map_cons, List.filter_cons, List.filter_cons, updateFun_key]
    by_cases hb : (a.key == k) = true
    · rw [if_pos hb, if_pos hb, ih]
      have hne : a.key ≠ r.key := fun hc => h (hc ▸ beq_iff_eq.mp hb)
      unfold updateFun
      rw [if_neg (by simpa using hne)]
    · rw [if_neg hb, if_neg hb]
      exact ih

theorem filter_key_upsertRow_ne (s : Store) (r : DbRow) (k : Nat) (h : r.key ≠ k) :
    (upsertRow s r).filter (fun row => row.key == k) =
      s.filter (fun row => row.key == k) := by
  unfold upsertRow
  by_cases ha : s.any (fun row => row.key == r.key) = true
  · rw [if_pos ha]
    exact filter_key_map_updateFun s r k h
  · rw [if_neg ha, List.filter_append]
    have hone : List.filter (fun row => row.key == k) [r] = [] := by
      have hb : (r.key == k) = false := beq_eq_false_iff_ne.mpr h
      simp [List.filter_cons, hb]
    rw [hone, List.append_nil]

theorem filter_key_upsertBatch_ne :
    ∀ (rows : List DbRow) (s : Store) (k : Nat), (∀ r ∈ rows, r.key ≠ k) →
      (upsertBatch s rows).filter (fun row => row.key == k) =
        s.filter (fun row => row.key == k) := by
  intro rows
  induction rows with
  | nil =>
    intro s k _
    rfl
  | cons r rest ih =>
    intro s k hk
    rw [upsertBatch_cons,
      ih (upsertRow s r) k (fun q hq => hk q (List.mem_cons_of_mem r hq))]
    exact filter_key_upsertRow_ne s r k (hk r (List.mem_cons_self r rest))

theorem keysNodup_upsertRow (s : Store) (r : DbRow) (h : KeysNodup s) :
    KeysNodup (upsertRow s r) := by
  unfold KeysNodup at *
  unfold upsertRow
  by_cases ha : s.any (fun row => row.key == r.key) = true
  · rw [if_pos ha, keysOf_map_updateFun]
    exact h
  · rw [if_neg ha, keysOf_append_one, List.nodup_append]
    have hnot : r.key ∉ keysOf s := fun hc => ha ((any_key_iff s r.key).mpr hc)
    refine ⟨h, List.nodup_singleton _, ?_⟩
    intro x hx hmem
    rw [List.mem_singleton] at hmem
    exact hnot (hmem ▸ hx)

theorem keysNodup_upsertBatch :
    ∀ (rows : List DbRow) (s : Store), KeysNodup s →
      KeysNodup (upsertBatch s rows) := by
  intro rows
  induction rows with
  | nil =>
    intro s h
    exact h
  | cons r rest ih =>
    intro s h
    rw [upsertBatch_cons]
    exact ih (upsertRow s r) (keysNodup_upsertRow s r h)

theorem executemanyUpsert_ok_eq :
    ∀ (rows : List DbRow) (failAt : DbRow → Bool) (s s' : Store),
      executemanyUpsert failAt s rows = .ok s' → s' = upsertBatch s rows := by
  intro rows
  induction rows with
  | nil =>
    intro failAt s s' h
    cases h
    rfl
  | cons r rest ih =>
    intro failAt s s' h
    unfold executemanyUpsert at h
    by_cases hf : failAt r = true
    · rw [if_pos hf] at h
      cases h
    · rw [if_neg hf] at h
      rw [upsertBatch_cons]
      exact ih failAt (upsertRow s r) s' h

/-! ### Lemmas about the Normalizer -/

theorem parseRow_eq_some_iff (r : RawRecord) (row : CleanRow) :
    parseRow r = some row ↔
      parseRowKey r = some row.dt ∧ row.vals = parseMeas r := by
  unfold parseRow parseRowKey
  cases h : toDatetime (lookupField r "DATETIME") with
  | none => simp
  | some t =>
    simp only [Option.some.injEq]
    constructor
    · intro he
      rw [← he]
      exact ⟨rfl, rfl⟩
    · rintro ⟨h1, h2⟩
      rw [h1, ← h2]

theorem keys_filterMap_parseRow (records : List RawRecord) (t : Nat) :
    (t ∈ (records.filterMap parseRow).map (fun row => row.dt)) ↔
      ∃ r ∈ records, parseRowKey r = some t := by
  rw [List.mem_map]
  constructor
  · rintro ⟨row, hmem, hdt⟩
    rcases List.mem_filterMap.mp hmem with ⟨r, hr, hpr⟩
    have hchar := (parseRow_eq_some_iff r row).mp hpr
    exact ⟨r, hr, by rw [hchar.1, hdt]⟩
  · rintro ⟨r, hr, hpr⟩
    refine ⟨⟨t, parseMeas r⟩, List.mem_filterMap.mpr ⟨r, hr, ?_⟩, rfl⟩
    rw [parseRow_eq_some_iff]
    exact ⟨hpr, rfl⟩

theorem dedupFirst_cons (seen : List Nat) (row : CleanRow) (rest : List CleanRow) :
    dedupFirst seen (row :: rest) =
      if seen.contains row.dt then dedupFirst seen rest
      else row :: dedupFirst (row.dt :: seen) rest := rfl

theorem dedupFirst_cons_seen (seen : List Nat) (row : CleanRow)
    (rest : List CleanRow) (h : seen.contains row.dt = true) :
    dedupFirst seen (row :: rest) = dedupFirst seen rest := by
  rw [dedupFirst_cons, if_pos h]

theorem dedupFirst_cons_new (seen : List Nat) (row : CleanRow)
    (rest : List CleanRow) (h : ¬ seen.contains row.dt = true) :
    dedupFirst seen (row :: rest) = row :: dedupFirst (row.dt :: seen) rest := by
  rw [dedupFirst_cons, if_neg h]

theorem mem_of_mem_dedupFirst :
    ∀ (l : List CleanRow) (seen : List Nat) (row : CleanRow),
      row ∈ dedupFirst seen l → row ∈ l := by
  intro l
  induction l with
  | nil =>
    intro seen row h
    cases h
  | cons a rest ih =>
    intro seen row h
    by_cases hc : seen.contains a.dt = true
    · rw [dedupFirst_cons_seen seen a rest hc] at h
      exact List.mem_cons_of_mem a (ih seen row h)
    · rw [dedupFirst_cons_new seen a rest hc] at h
      rcases List.mem_cons.mp h with h1 | h2
      · rw [h1]
        exact List.mem_cons_self a rest
      · exact List.mem_cons_of_mem a (ih (a.dt :: seen) row h2)

theorem not_seen_of_mem_dedupFirst :
    ∀ (l : List CleanRow) (seen : List Nat) (row : CleanRow),
      row ∈ dedupFirst seen l → row.dt ∉ seen := by
  intro l
  induction l with
  | nil =>
    intro seen row h
    cases h
  | cons a rest ih =>
    intro seen row h
    by_cases hc : seen.contains a.dt = true
    · rw [dedupFirst_cons_seen seen a rest hc] at h
      exact ih seen row h
    · rw [dedupFirst_cons_new seen a rest hc] at h
      rcases List.mem_cons.mp h with h1 | h2
      · rw [h1]
        intro hmem
        exact hc (List.elem_iff.mpr hmem)
      · intro hmem
        exact ih (a.dt :: seen) row h2 (List.mem_cons_of_mem a.dt hmem)

theorem keys_nodup_dedupFirst :
    ∀ (l : List CleanRow) (seen : List Nat),
      ((dedupFirst seen l).map (fun row => row.dt)).Nodup := by
  intro l
  induction l with
  | nil =>
    intro seen
    simp [dedupFirst]
  | cons a rest ih =>
    intro seen
    by_cases hc : seen.contains a.dt = true
    · rw [dedupFirst_cons_seen seen a rest hc]
      exact ih seen
    · rw [dedupFirst_cons_new seen a rest hc, List.map_cons, List.nodup_cons]
      refine ⟨?_, ih (a.dt :: seen)⟩
      intro hmem
      rcases List.mem_map.mp hmem with ⟨row, hrow, hdt⟩
      exact not_seen_of_mem_dedupFirst rest (a.dt :: seen) row hrow
        (hdt ▸ List.mem_cons_self a.dt seen)

theorem keys_mem_dedupFirst :
    ∀ (l : List CleanRow) (seen : List Nat) (t : Nat), t ∉ seen →
      (t ∈ (dedupFirst seen l).map (fun row => row.dt) ↔
        t ∈ l.map (fun row => row.dt)) := by
  intro l
  induction l with
  | nil =>
    intro seen t _
    simp [dedupFirst]
  | cons a rest ih =>
    intro seen t ht
    by_cases hc : seen.contains a.dt = true
    · rw [dedupFirst_cons_seen seen a rest hc, List.map_cons, List.mem_cons]
      rw [ih seen t ht]
      constructor
      · intro h
        exact Or.inr h
      · rintro (h1 | h2)
        · exact absurd (h1 ▸ List.elem_iff.mp hc) ht
        · exact h2
    · rw [dedupFirst_cons_new seen a rest hc, List.map_cons, List.map_cons,
        List.mem_cons, List.mem_cons]
      by_cases he : t = a.dt
      · simp [he]
      · have ht2 : t ∉ a.dt :: seen := by
          intro hmem
          rcases List.mem_cons.mp hmem with h1 | h2
          · exact he h1
          · exact ht h2
        rw [ih (a.dt :: seen) t ht2]

theorem find?_clean_cons (a : CleanRow) (rest : List CleanRow) (t : Nat) :
    (a :: rest).find? (fun row => row.dt == t) =
      if a.dt == t then some a else rest.find? (fun row => row.dt == t) := by
  cases h : a.dt == t with
  | true => simp [List.find?_cons, h]
  | false => simp [List.find?_cons, h]

theorem find?_dedupFirst :
    ∀ (l : List CleanRow) (seen : List Nat) (t : Nat), t ∉ seen →
      (dedupFirst seen l).find? (fun row => row.dt == t) =
        l.find? (fun row => row.dt == t) := by
  intro l
  induction l with
  | nil =>
    intro seen t _
    rfl
  | cons a rest ih =>
    intro seen t ht
    by_cases hc : seen.contains a.dt = true
    · rw [dedupFirst_cons_seen seen a rest hc, find?_clean_cons]
      have hb : (a.dt == t) = false := by
        rw [beq_eq_false_iff_ne]
        intro hcontra
        exact ht (hcontra ▸ List.elem_iff.mp hc)
      rw [if_neg (by rw [hb]; exact Bool.false_ne_true)]
      exact ih seen t ht
    · rw [dedupFirst_cons_new seen a rest hc, find?_clean_cons, find?_clean_cons]
      by_cases hb : (a.dt == t) = true
      · rw [if_pos hb, if_pos hb]
      · rw [if_neg hb, if_neg hb]
        have ht2 : t ∉ a.dt :: seen := by
          intro hmem
          rcases List.mem_cons.mp hmem with h1 | h2
          · exact hb (beq_iff_eq.mpr (h1 ▸ rfl))
          · exact ht h2
        exact ih (a.dt :: seen) t ht2

theorem find?_filterMap_parseRow :
    ∀ (records : List RawRecord) (t : Nat),
      (records.filterMap parseRow).find? (fun row => row.dt == t) =
        (records.find? (fun r => decide (parseRowKey r = some t))).map
          (fun r => (⟨t, parseMeas r⟩ : CleanRow)) := by
  intro records
  induction records with
  | nil =>
    intro t
    rfl
  | cons r rest ih =>
    intro t
    cases hk : parseRowKey r with
    | none =>
      have hp : parseRow r = none := by
        unfold parseRow
        unfold parseRowKey at hk
        rw [hk]
      have hb : decide (parseRowKey r = some t) = false := by
        rw [hk]
        exact decide_eq_false (fun hc => Option.noConfusion hc)
      rw [List.filterMap_cons]
      simp only [hp, List.find?_cons, hb]
      exact ih t
    | some t' =>
      have hp : parseRow r = some ⟨t', parseMeas r⟩ := by
        unfold parseRow
        unfold parseRowKey at hk
        rw [hk]
      rw [List.filterMap_cons]
      simp only [hp]
      rw [find?_clean_cons]
      cases hb : t' == t with
      | true =>
        have ht : t' = t := beq_iff_eq.mp hb
        have hb2 : decide (parseRowKey r = some t) = true := by
          rw [hk, ht]
          exact decide_eq_true rfl
        rw [if_pos rfl, List.find?_cons]
        simp only [hb2, Option.map_some']
        rw [ht]
      | false =>
        have hb2 : decide (parseRowKey r = some t) = false := by
          rw [hk]
          exact decide_eq_false
            (fun hc => (beq_eq_false_iff_ne.mp hb) (Option.some.inj hc))
        rw [if_neg Bool.false_ne_true, List.find?_cons]
        simp only [hb2]
        exact ih t

theorem to_dataframe_clean_ok_eq {records : List RawRecord} {out : List CleanRow}
    (h : to_dataframe_clean records = .ok out) :
    out = sortByDt (dedupFirst [] (records.filterMap parseRow)) := by
  unfold to_dataframe_clean at h
  by_cases hc : cols.all (hasColumn records) = true
  · rw [if_pos hc] at h
    exact (Except.ok.inj h).symm
  · rw [if_neg hc] at h
    cases h

theorem to_dataframe_clean_strict_ok_eq {records : List RawRecord}
    {out : List CleanRow} (h : to_dataframe_clean_strict records = .ok out) :
    out = sortByDt (dedupFirst []
      ((records.filterMap parseRow).filter
        (fun row => !rowHasNegative row.vals))) := by
  unfold to_dataframe_clean_strict at h
  by_cases hc : cols.all (hasColumn records) = true
  · rw [if_pos hc] at h
    exact (Except.ok.inj h).symm
  · rw [if_neg hc] at h
    cases h

theorem insertByDt_perm (row : CleanRow) (l : List CleanRow) :
    (insertByDt row l).Perm (row :: l) := by
  induction l with
  | nil => exact List.Perm.refl _
  | cons a rest ih =>
    unfold insertByDt
    by_cases h : rowLe row a = true
    · rw [if_pos h]
    · rw [if_neg h]
      exact List.Perm.trans (List.Perm.cons a ih) (List.Perm.swap row a rest)

theorem sortByDt_perm (l : List CleanRow) : (sortByDt l).Perm l := by
  induction l with
  | nil => exact List.Perm.refl _
  | cons a rest ih =>
    show (insertByDt a (sortByDt rest)).Perm (a :: rest)
    exact List.Perm.trans (insertByDt_perm a (sortByDt rest)) (List.Perm.cons a ih)

theorem pairwise_le_insertByDt (row : CleanRow) (l : List CleanRow)
    (h : l.Pairwise (fun a b => a.dt ≤ b.dt)) :
    (insertByDt row l).Pairwise (fun a b => a.dt ≤ b.dt) := by
  induction l with
  | nil => simp [insertByDt]
  | cons a rest ih =>
    unfold insertByDt
    rw [List.pairwise_cons] at h
    by_cases hle : rowLe row a = true
    · rw [if_pos hle]
      have hra : row.dt ≤ a.dt := by simpa [rowLe] using hle
      rw [List.pairwise_cons]
      refine ⟨?_, List.pairwise_cons.mpr ⟨h.1, h.2⟩⟩
      intro x hx
      rcases List.mem_cons.mp hx with h1 | h2
      · rw [h1]
        exact hra
      · exact Nat.le_trans hra (h.1 x h2)
    · rw [if_neg hle]
      have har : a.dt ≤ row.dt := by
        have hnot : ¬ row.dt ≤ a.dt := by simpa [rowLe] using hle
        exact Nat.le_of_lt (Nat.lt_of_not_le hnot)
      rw [List.pairwise_cons]
      refine ⟨?_, ih h.2⟩
      intro x hx
      have hx2 : x ∈ row :: rest := (insertByDt_perm row rest).mem_iff.mp hx
      rcases List.mem_cons.mp hx2 with h1 | h2
      · rw [h1]
        exact har
      · exact h.1 x h2

theorem pairwise_le_sortByDt (l : List CleanRow) :
    (sortByDt l).Pairwise (fun a b => a.dt ≤ b.dt) := by
  induction l with
  | nil => simp [sortByDt]
  | cons a rest ih => exact pairwise_le_insertByDt a (sortByDt rest) ih

theorem countP_key_eq_one :
    ∀ (l : List CleanRow) (t : Nat), ((l.map (fun row => row.dt)).Nodup) →
      t ∈ l.map (fun row => row.dt) →
      l.countP (fun row => row.dt == t) = 1 := by
  intro l
  induction l with
  | nil =>
    intro t _ hmem
    simp at hmem
  | cons a rest ih =>
    intro t hnd hmem
    rw [List.map_cons, List.nodup_cons] at hnd
    rw [List.map_cons, List.mem_cons] at hmem
    rw [List.countP_cons]
    rcases hmem with h1 | h2
    · have hp : (a.dt == t) = true := beq_iff_eq.mpr h1.symm
      rw [if_pos hp]
      have hz : rest.countP (fun row => row.dt == t) = 0 := by
        rw [List.countP_eq_zero]
        intro q hq hqt
        exact hnd.1 (by
          rw [← h1]
          exact List.mem_map.mpr ⟨q, hq, beq_iff_eq.mp hqt⟩)
      rw [hz]
    · have hne : a.dt ≠ t := by
        intro hc
        exact hnd.1 (hc ▸ h2)
      have hp : (a.dt == t) = false := beq_eq_false_iff_ne.mpr hne
      rw [hp, if_neg Bool.false_ne_true, Nat.add_zero]
      exact ih t hnd.2 h2

theorem eq_of_same_key {l : List CleanRow}
    (hnd : (l.map (fun row => row.dt)).Nodup) {x y : CleanRow}
    (hx : x ∈ l) (hy : y ∈ l) (hxy : x.dt = y.dt) : x = y :=
  List.inj_on_of_nodup_map hnd hx hy hxy

/-! ### Lemmas about the run sequencing -/

theorem runIngest_ok {resp : ApiResponse} {s s' : Store} {n : Nat}
    (h : runIngest resp s = (s', .ok n)) :
    ∃ records out, fetch_records_from_api resp = .ok records ∧
      to_dataframe_clean records = .ok out ∧
      s' = upsertBatch s (build_rows out) ∧ n = (build_rows out).length := by
  unfold runIngest at h
  cases hf : fetch_records_from_api resp with
  | error e =>
    simp only [hf] at h
    have hsnd := congrArg Prod.snd h
    cases hsnd
  | ok records =>
    simp only [hf] at h
    cases hc : to_dataframe_clean records with
    | error e =>
      simp only [hc] at h
      have hsnd := congrArg Prod.snd h
      cases hsnd
    | ok out =>
      simp only [hc] at h
      have hfst := congrArg Prod.fst h
      have hsnd := congrArg Prod.snd h
      refine ⟨records, out, rfl, hc, hfst.symm, ?_⟩
      exact (Except.ok.inj hsnd).symm

theorem runIngest_error {resp : ApiResponse} {s : Store} {e : RunError}
    (h : fetch_records_from_api resp = .error e) :
    runIngest resp s = (s, .error e) := by
  unfold runIngest
  rw [h]

/-! ### Concrete instances (the worked example of the spec and test fixtures) -/

/-- A raw record over the full column list with the given `DATETIME`, `GAS` and
`COAL` texts, the other ten measurements filled with "0". -/
def mkRecord (dt gas coal : String) : RawRecord :=
  [("DATETIME", .str dt), ("GAS", .str gas), ("COAL", .str coal),
   ("NUCLEAR", .str "0"), ("WIND", .str "0"), ("WIND_EMB", .str "0"),
   ("HYDRO", .str "0"), ("IMPORTS", .str "0"), ("BIOMASS", .str "0"),
   ("OTHER", .str "0"), ("SOLAR", .str "0"), ("STORAGE", .str "0"),
   ("GENERATION", .str "0"), ("CARBON_INTENSITY", .str "0")]

/-- The three-record raw batch of the spec's worked example: two records for
2025-10-20T20:30:00Z carrying different GAS/COAL values around one record with
an unparseable timestamp. -/
def exampleRecords : List RawRecord :=
  [mkRecord "2025-10-20T20:30:00Z" "11691.0" "4312.0",
   mkRecord "bad" "10" "10",
   mkRecord "2025-10-20T20:30:00Z" "12000.0" "4000.0"]

/-- The instant encoding of 2025-10-20T20:30:00Z. -/
def exampleT : Nat := dtEncode 2025 10 20 20 30 0

/-- Measurement values with the given GAS and COAL and zero elsewhere. -/
def measGC (gas coal : Dec) : Meas :=
  ⟨some (.fin gas), some (.fin coal), some (.fin ⟨0, 0⟩), some (.fin ⟨0, 0⟩),
   some (.fin ⟨0, 0⟩), some (.fin ⟨0, 0⟩), some (.fin ⟨0, 0⟩),
   some (.fin ⟨0, 0⟩), some (.fin ⟨0, 0⟩), some (.fin ⟨0, 0⟩),
   some (.fin ⟨0, 0⟩), some (.fin ⟨0, 0⟩), some (.fin ⟨0, 0⟩)⟩

/-- A single-record response fixture. -/
def exResp : ApiResponse :=
  ⟨200, true, some [mkRecord "2025-10-20T20:30:00Z" "11691.0" "4312.0"]⟩

/-- The store produced by ingesting `exResp` into an empty store. -/
def exStore : Store := [⟨exampleT, measGC ⟨11691, 0⟩ ⟨4312, 0⟩⟩]

/-- Measurement values with GAS set and every other column null. -/
def exMeasNull : Meas :=
  ⟨some (.fin ⟨12000, 0⟩), none, none, none, none, none, none, none, none,
   none, none, none, none⟩

/-- A two-record batch whose first row carries a negative GAS measurement. -/
def negRecords : List RawRecord :=
  [mkRecord "2025-10-20T20:30:00Z" "-5.0" "1.0",
   mkRecord "2025-10-20T21:00:00Z" "10.0" "1.0"]

/-- A one-record batch whose GAS cell is the string "Infinity" (and whose
timestamp is valid, so the row is kept). -/
def infRecords : List RawRecord :=
  [mkRecord "2025-10-20T20:30:00Z" "Infinity" "1.0"]

/-- The measurements that batch cleans to: a non-finite GAS value. -/
def measInfGC : Meas := { measGC ⟨0, 0⟩ ⟨1, 0⟩ with gas := some NumVal.posInf }

/-! ### The claims -/

/-- C1: Idempotence of the merge — applying the upsert batch twice yields the
same store as applying it once; hence re-running the whole ingest over an
unchanged remote response reproduces the same store state and reports the same
processed-row count, with no duplicate keys and no value drift. -/
theorem upsert_idempotent_rerun (s : Store) (b : List DbRow) (resp : ApiResponse)
    (s₁ s₂ : Store) (n₁ n₂ : Nat)
    (h₁ : runIngest resp s = (s₁, .ok n₁))
    (h₂ : runIngest resp s₁ = (s₂, .ok n₂)) :
    upsertBatch (upsertBatch s b) b = upsertBatch s b ∧ s₂ = s₁ ∧ n₂ = n₁ := by
  obtain ⟨recs, out, hf, hc, hs1, hn1⟩ := runIngest_ok h₁
  obtain ⟨recs', out', hf', hc', hs2, hn2⟩ := runIngest_ok h₂
  have hr : recs = recs' := by
    rw [hf] at hf'
    exact Except.ok.inj hf'
  have hout : out = out' := by
    rw [← hr] at hc'
    rw [hc] at hc'
    exact Except.ok.inj hc'
  refine ⟨upsertBatch_idem s b, ?_, ?_⟩
  · rw [hs2, ← hout, hs1]
    exact upsertBatch_idem s (build_rows out)
  · rw [hn2, ← hout, hn1]

/-- Witness for C1 at a concrete one-record response and an empty store. -/
theorem upsert_idempotent_rerun_witness :
    upsertBatch (upsertBatch [] exStore) exStore = upsertBatch [] exStore ∧
    exStore = exStore ∧ 1 = 1 :=
  upsert_idempotent_rerun [] exStore exResp exStore exStore 1 1
    (by decide) (by decide)

theorem findRow_map_updateFun_self :
    ∀ (s : Store) (r : DbRow), r.key ∈ keysOf s →
      findRow (s.map (updateFun r)) r.key = some ⟨r.key, r.vals⟩ := by
  intro s r
  induction s with
  | nil =>
    intro h
    simp [keysOf] at h
  | cons a rest ih =>
    intro h
    rw [List.map_cons, findRow_cons, updateFun_key]
    by_cases hb : (a.key == r.key) = true
    · rw [if_pos hb]
      unfold updateFun
      rw [if_pos hb, beq_iff_eq.mp hb]
    · rw [if_neg hb]
      apply ih
      have h2 : r.key ∈ a.key :: keysOf rest := by simpa [keysOf] using h
      rcases List.mem_cons.mp h2 with h3 | h4
      · exact absurd (beq_iff_eq.mpr h3.symm) hb
      · exact h4

/-- C2: Upsert overwrite semantics — when the key is already stored, the
upsert rewrites the stored row to carry exactly the incoming values in all
thirteen measurement columns (a full replace, nulls included), and the store
keeps at most one row per distinct timestamp after any upsert. -/
theorem upsert_overwrites_every_column (s : Store) (r : DbRow)
    (rows : List DbRow) (hmem : (findRow s r.key).isSome = true)
    (hnd : KeysNodup s) :
    findRow (upsertRow s r) r.key = some ⟨r.key, r.vals⟩ ∧
    KeysNodup (upsertRow s r) ∧ KeysNodup (upsertBatch s rows) := by
  have hk : r.key ∈ keysOf s := by
    rcases Option.isSome_iff_exists.mp hmem with ⟨row₀, hrow⟩
    have hp := List.find?_some hrow
    have hm := List.mem_of_find?_eq_some hrow
    exact List.mem_map.mpr ⟨row₀, hm, beq_iff_eq.mp hp⟩
  refine ⟨?_, keysNodup_upsertRow s r hnd, keysNodup_upsertBatch rows s hnd⟩
  unfold upsertRow
  rw [if_pos ((any_key_iff s r.key).mpr hk)]
  exact findRow_map_updateFun_self s r hk

/-- Witness for C2: overwriting the stored example row with a row that sets
GAS and nulls the other twelve columns. -/
theorem upsert_overwrites_every_column_witness :
    findRow (upsertRow exStore ⟨exampleT, exMeasNull⟩) exampleT =
      some ⟨exampleT, exMeasNull⟩ ∧
    KeysNodup (upsertRow exStore ⟨exampleT, exMeasNull⟩) ∧
    KeysNodup (upsertBatch exStore [⟨5, exMeasNull⟩]) :=
  upsert_overwrites_every_column exStore ⟨exampleT, exMeasNull⟩
    [⟨5, exMeasNull⟩] (by decide) (by decide)

/-- C3: Batch atomicity — one write phase either commits the whole batch (the
visible store becomes the full upsert result and the batch length is
reported), or fails and leaves the visible store exactly at its pre-call
state with nothing reported. -/
theorem upsert_batch_atomic (failAt : DbRow → Bool) (s : Store)
    (rows : List DbRow) :
    commitRun failAt s rows = (upsertBatch s rows, some rows.length) ∨
    commitRun failAt s rows = (s, none) := by
  unfold commitRun
  cases he : executemanyUpsert failAt s rows with
  | ok w =>
    left
    rw [executemanyUpsert_ok_eq rows failAt s w he]
  | error e =>
    right
    rfl

/-- C4 fails on the code: cleaning the spec's worked example keeps the FIRST
record's measurements (pandas `drop_duplicates` defaults to `keep="first"`),
not the last — GAS stays 11691.0 and COAL 4312.0, not the claimed 12000.0 and
4000.0. -/
theorem example_batch_keeps_first_not_last :
    to_dataframe_clean exampleRecords =
      .ok [⟨exampleT, measGC ⟨11691, 0⟩ ⟨4312, 0⟩⟩] ∧
    measGC ⟨11691, 0⟩ ⟨4312, 0⟩ ≠ measGC ⟨12000, 0⟩ ⟨4000, 0⟩ :=
  ⟨by decide, by decide⟩

/-- C4 (amended): first-seen-wins deduplication — a duplicated timestamp
yields exactly one cleaned row, and that row carries the measurement values
of the FIRST record of the batch whose timestamp parses to that key; in the
spec's worked example the single output row keeps GAS=11691.0, COAL=4312.0,
and the malformed-timestamp row is dropped. -/
theorem dedup_first_seen_wins (records : List RawRecord) (out : List CleanRow)
    (t : Nat) (h : to_dataframe_clean records = .ok out)
    (hex : ∃ r ∈ records, parseRowKey r = some t) :
    out.countP (fun row => row.dt == t) = 1 ∧
    out.find? (fun row => row.dt == t) =
      (records.find? (fun r => decide (parseRowKey r = some t))).map
        (fun r => (⟨t, parseMeas r⟩ : CleanRow)) := by
  have hok := to_dataframe_clean_ok_eq h
  have hperm : out.Perm (dedupFirst [] (records.filterMap parseRow)) := by
    rw [hok]
    exact sortByDt_perm _
  have hndD : ((dedupFirst [] (records.filterMap parseRow)).map
      (fun row => row.dt)).Nodup := keys_nodup_dedupFirst _ []
  obtain ⟨r, hr, hkey⟩ := hex
  have htmemF : t ∈ (records.filterMap parseRow).map (fun row => row.dt) :=
    (keys_filterMap_parseRow records t).mpr ⟨r, hr, hkey⟩
  have htmemD : t ∈ (dedupFirst [] (records.filterMap parseRow)).map
      (fun row => row.dt) :=
    (keys_mem_dedupFirst _ [] t (List.not_mem_nil t)).mpr htmemF
  constructor
  · rw [List.Perm.countP_eq _ hperm]
    exact countP_key_eq_one _ t hndD htmemD
  · have hDfind : (dedupFirst [] (records.filterMap parseRow)).find?
        (fun row => row.dt == t) =
        (records.find? (fun r => decide (parseRowKey r = some t))).map
          (fun r => (⟨t, parseMeas r⟩ : CleanRow)) := by
      rw [find?_dedupFirst _ [] t (List.not_mem_nil t)]
      exact find?_filterMap_parseRow records t
    have hrfind : ((records.find?
        (fun r => decide (parseRowKey r = some t))).isSome) = true := by
      rw [List.find?_isSome]
      exact ⟨r, hr, decide_eq_true hkey⟩
    obtain ⟨r₀, hr₀⟩ := Option.isSome_iff_exists.mp hrfind
    have hDf : (dedupFirst [] (records.filterMap parseRow)).find?
        (fun row => row.dt == t) = some ⟨t, parseMeas r₀⟩ := by
      rw [hDfind, hr₀]
      rfl
    have hdD : (⟨t, parseMeas r₀⟩ : CleanRow) ∈
        dedupFirst [] (records.filterMap parseRow) :=
      List.mem_of_find?_eq_some hDf
    have hdout : (⟨t, parseMeas r₀⟩ : CleanRow) ∈ out := hperm.mem_iff.mpr hdD
    have hofind : ((out.find? (fun row => row.dt == t)).isSome) = true := by
      rw [List.find?_isSome]
      exact ⟨⟨t, parseMeas r₀⟩, hdout, beq_iff_eq.mpr rfl⟩
    obtain ⟨q, hq⟩ := Option.isSome_iff_exists.mp hofind
    have hqmem : q ∈ out := List.mem_of_find?_eq_some hq
    have hqp := List.find?_some hq
    have hqdt : q.dt = t := beq_iff_eq.mp hqp
    have hndO : (out.map (fun row => row.dt)).Nodup :=
      (List.Perm.nodup_iff (hperm.map (fun row => row.dt))).mpr hndD
    have hqd : q = ⟨t, parseMeas r₀⟩ := eq_of_same_key hndO hqmem hdout hqdt
    rw [hq, hqd, hr₀]
    rfl

/-- Witness for C4 (amended) at the spec's worked example. -/
theorem dedup_first_seen_wins_witness :
    ([(⟨exampleT, measGC ⟨11691, 0⟩ ⟨4312, 0⟩⟩ : CleanRow)].countP
      (fun row => row.dt == exampleT) = 1) ∧
    ([(⟨exampleT, measGC ⟨11691, 0⟩ ⟨4312, 0⟩⟩ : CleanRow)].find?
      (fun row => row.dt == exampleT) =
      (exampleRecords.find? (fun r => decide (parseRowKey r = some exampleT))).map
        (fun r => (⟨exampleT, parseMeas r⟩ : CleanRow))) :=
  dedup_first_seen_wins exampleRecords
    [⟨exampleT, measGC ⟨11691, 0⟩ ⟨4312, 0⟩⟩] exampleT (by decide) (by decide)

/-- C5 is violated by the code: an HTTP 200 reply with an empty records list
makes the fetch return an empty sequence as required, but the cleaning stage
then fails — the DataFrame built from zero records has no columns, so the
column projection raises KeyError — instead of the run completing cleanly
with zero rows. The store is still left unchanged. -/
theorem empty_records_crash :
    fetch_records_from_api ⟨200, true, some []⟩ = .ok [] ∧
    to_dataframe_clean [] = .error (.keyError "columns not in index") ∧
    runIngest ⟨200, true, some []⟩ [] =
      ([], .error (.keyError "columns not in index")) :=
  ⟨by decide, by decide, by decide⟩

/-- C6 fails on the code in its success-flag clause: a 200 reply whose
envelope carries success=false is not rejected — its records are returned as
an ordinary success. -/
theorem success_flag_false_not_rejected :
    fetch_records_from_api ⟨200, false, some exampleRecords⟩ =
      .ok exampleRecords := rfl

/-- C6 (amended): any response with HTTP status ≠ 200 makes the run fail
fatally with a SystemExit error carrying the status code, before anything is
written to the store; the envelope's success flag is never inspected — a 200
reply is processed identically whatever the flag's value. -/
theorem http_error_fatal_flag_ignored (status : Nat) (succ succ' : Bool)
    (rr : Option (List RawRecord)) (s : Store) (h : status ≠ 200) :
    fetch_records_from_api ⟨status, succ, rr⟩ =
      .error (.systemExitHTTP status) ∧
    runIngest ⟨status, succ, rr⟩ s = (s, .error (.systemExitHTTP status)) ∧
    fetch_records_from_api ⟨200, succ, rr⟩ =
      fetch_records_from_api ⟨200, succ', rr⟩ := by
  have hf : fetch_records_from_api ⟨status, succ, rr⟩ =
      .error (.systemExitHTTP status) := by
    unfold fetch_records_from_api
    rw [if_pos h]
  exact ⟨hf, runIngest_error hf, rfl⟩

/-- Witness for C6 (amended) at a concrete 503 response. -/
theorem http_error_fatal_flag_ignored_witness :
    fetch_records_from_api ⟨503, true, some []⟩ =
      .error (.systemExitHTTP 503) ∧
    runIngest ⟨503, true, some []⟩ [] =
      ([], .error (.systemExitHTTP 503)) ∧
    fetch_records_from_api ⟨200, true, some []⟩ =
      fetch_records_from_api ⟨200, false, some []⟩ :=
  http_error_fatal_flag_ignored 503 true false (some []) [] (by decide)

/-- C7: Null-safety row-retention — whenever the column projection succeeds,
the cleaning stage succeeds (per-field parse failures are never a run
failure); every record whose timestamp parses contributes a cleaned row with
that key no matter how its measurements parse, and every cleaned row stems
from a record whose timestamp parsed (rows with unparseable timestamps are
dropped). -/
theorem null_safety_policy (records : List RawRecord)
    (hcols : cols.all (hasColumn records) = true) :
    ∃ out, to_dataframe_clean records = .ok out ∧
      (∀ r ∈ records, ∀ t : Nat, parseRowKey r = some t →
        ∃ row ∈ out, row.dt = t) ∧
      (∀ row ∈ out, ∃ r ∈ records,
        parseRowKey r = some row.dt ∧ row.vals = parseMeas r) := by
  refine ⟨sortByDt (dedupFirst [] (records.filterMap parseRow)), ?_, ?_, ?_⟩
  · unfold to_dataframe_clean
    rw [if_pos hcols]
  · intro r hr t ht
    have h1 : t ∈ (records.filterMap parseRow).map (fun row => row.dt) :=
      (keys_filterMap_parseRow records t).mpr ⟨r, hr, ht⟩
    have h2 : t ∈ (dedupFirst [] (records.filterMap parseRow)).map
        (fun row => row.dt) :=
      (keys_mem_dedupFirst _ [] t (List.not_mem_nil t)).mpr h1
    have h3 := (sortByDt_perm
      (dedupFirst [] (records.filterMap parseRow))).map (fun row => row.dt)
    rcases List.mem_map.mp (h3.mem_iff.mpr h2) with ⟨row, hrow, hdt⟩
    exact ⟨row, hrow, hdt⟩
  · intro row hrow
    have h1 : row ∈ dedupFirst [] (records.filterMap parseRow) :=
      (sortByDt_perm _).mem_iff.mp hrow
    have h2 : row ∈ records.filterMap parseRow :=
      mem_of_mem_dedupFirst _ [] row h1
    rcases List.mem_filterMap.mp h2 with ⟨r, hr, hpr⟩
    have hchar := (parseRow_eq_some_iff r row).mp hpr
    exact ⟨r, hr, hchar.1, hchar.2⟩

/-- Witness for C7 at the spec's worked example (one bad measurement batch
with a malformed timestamp row). -/
theorem null_safety_policy_witness :
    ∃ out, to_dataframe_clean exampleRecords = .ok out ∧
      (∀ r ∈ exampleRecords, ∀ t : Nat, parseRowKey r = some t →
        ∃ row ∈ out, row.dt = t) ∧
      (∀ row ∈ out, ∃ r ∈ exampleRecords,
        parseRowKey r = some row.dt ∧ row.vals = parseMeas r) :=
  null_safety_policy exampleRecords (by decide)

/-- C8 fails on the code: `pd.to_numeric` parses the string "Infinity" to a
non-finite value, the row survives cleaning (its timestamp is valid), and the
non-finite GAS value is passed on to storage as a non-finite REAL — neither a
finite real number nor null, refuting the finite-or-null guarantee. -/
theorem infinity_reaches_output :
    to_dataframe_clean infRecords = .ok [⟨exampleT, measInfGC⟩] ∧
    runIngest ⟨200, true, some infRecords⟩ [] =
      ([⟨exampleT, measInfGC⟩], .ok 1) ∧
    measInfGC.gas = some NumVal.posInf ∧
    (∀ d : Dec, measInfGC.gas ≠ some (NumVal.fin d)) ∧
    measInfGC.gas ≠ none := by
  refine ⟨by decide, by decide, by decide, ?_, by decide⟩
  intro d h
  exact NumVal.noConfusion (Option.some.inj h)

/-- C8 (amended): Cleaned-output invariant — the cleaned sequence is strictly
ascending by timestamp with no duplicate keys, and every row's measurement
values are the numeric coercions of some raw record: per field a parsed
number (finite, or ±Inf for the infinity spellings, which reach storage as
non-finite REALs) or null, never a raw string and never NaN (NaN coerces to
the missing sentinel and reaches storage only as NULL). -/
theorem clean_output_sorted_unique (records : List RawRecord)
    (out : List CleanRow) (h : to_dataframe_clean records = .ok out) :
    (out.map (fun row => row.dt)).Pairwise (· < ·) ∧
    ∀ row ∈ out, ∃ r ∈ records, row.vals = parseMeas r := by
  have hok := to_dataframe_clean_ok_eq h
  constructor
  · have hle : (sortByDt (dedupFirst [] (records.filterMap parseRow))).Pairwise
        (fun a b => a.dt ≤ b.dt) := pairwise_le_sortByDt _
    have hndD : ((dedupFirst [] (records.filterMap parseRow)).map
        (fun row => row.dt)).Nodup := keys_nodup_dedupFirst _ []
    have hpm := (sortByDt_perm
      (dedupFirst [] (records.filterMap parseRow))).map (fun row => row.dt)
    have hndO : ((sortByDt (dedupFirst [] (records.filterMap parseRow))).map
        (fun row => row.dt)).Nodup := hpm.nodup_iff.mpr hndD
    rw [hok, List.pairwise_map]
    have hne : (sortByDt (dedupFirst [] (records.filterMap parseRow))).Pairwise
        (fun a b => a.dt ≠ b.dt) := List.pairwise_map.mp hndO
    exact (hle.and hne).imp (fun hab => Nat.lt_of_le_of_ne hab.1 hab.2)
  · intro row hrow
    rw [hok] at hrow
    have h1 : row ∈ dedupFirst [] (records.filterMap parseRow) :=
      (sortByDt_perm _).mem_iff.mp hrow
    have h2 : row ∈ records.filterMap parseRow :=
      mem_of_mem_dedupFirst _ [] row h1
    rcases List.mem_filterMap.mp h2 with ⟨r, hr, hpr⟩
    exact ⟨r, hr, ((parseRow_eq_some_iff r row).mp hpr).2⟩

/-- Witness for C8 at the spec's worked example. -/
theorem clean_output_sorted_unique_witness :
    (([(⟨exampleT, measGC ⟨11691, 0⟩ ⟨4312, 0⟩⟩ : CleanRow)]).map
      (fun row => row.dt)).Pairwise (· < ·) ∧
    ∀ row ∈ [(⟨exampleT, measGC ⟨11691, 0⟩ ⟨4312, 0⟩⟩ : CleanRow)],
      ∃ r ∈ exampleRecords, row.vals = parseMeas r :=
  clean_output_sorted_unique exampleRecords
    [⟨exampleT, measGC ⟨11691, 0⟩ ⟨4312, 0⟩⟩] (by decide)

/-- C9 (strict variant, modelled from the spec since the stricter
near-duplicate of the Normalizer is not under src/): a row with any negative
measurement is absent from the strict cleaned output. -/
theorem strict_variant_no_negative_rows (records : List RawRecord)
    (out : List CleanRow) (h : to_dataframe_clean_strict records = .ok out) :
    ∀ row ∈ out, rowHasNegative row.vals = false := by
  have hok := to_dataframe_clean_strict_ok_eq h
  intro row hrow
  rw [hok] at hrow
  have h1 : row ∈ dedupFirst [] ((records.filterMap parseRow).filter
      (fun row => !rowHasNegative row.vals)) :=
    (sortByDt_perm _).mem_iff.mp hrow
  have h2 : row ∈ (records.filterMap parseRow).filter
      (fun row => !rowHasNegative row.vals) :=
    mem_of_mem_dedupFirst _ [] row h1
  have h3 := (List.mem_filter.mp h2).2
  cases hb : rowHasNegative row.vals
  · rfl
  · simp [hb] at h3

/-- Witness for C9: a batch with one negative-GAS row cleans (strictly) to
just the untainted row, whose measurements are negative-free. -/
theorem strict_variant_no_negative_rows_witness :
    rowHasNegative (measGC ⟨10, 0⟩ ⟨1, 0⟩) = false :=
  strict_variant_no_negative_rows negRecords
    [⟨dtEncode 2025 10 20 21 0 0, measGC ⟨10, 0⟩ ⟨1, 0⟩⟩] (by decide)
    ⟨dtEncode 2025 10 20 21 0 0, measGC ⟨10, 0⟩ ⟨1, 0⟩⟩ (by decide)

/-- C10: Upsert frame property — a stored key that does not occur among the
batch's timestamps is completely untouched by the upsert: its lookup result
(whole row, all thirteen measurement columns) is unchanged, and so is the
exact set of table rows carrying that key. -/
theorem upsert_frame_untouched (s : Store) (rows : List DbRow) (k : Nat)
    (h : k ∉ rows.map (fun r => r.key)) :
    findRow (upsertBatch s rows) k = findRow s k ∧
    (upsertBatch s rows).filter (fun row => row.key == k) =
      s.filter (fun row => row.key == k) := by
  have hk : ∀ r ∈ rows, r.key ≠ k :=
    fun r hr hc => h (List.mem_map.mpr ⟨r, hr, hc⟩)
  exact ⟨findRow_upsertBatch_ne rows s k hk,
    filter_key_upsertBatch_ne rows s k hk⟩

/-- Witness for C10: upserting a fresh key leaves the stored example row
untouched. -/
theorem upsert_frame_untouched_witness :
    findRow (upsertBatch exStore [⟨5, exMeasNull⟩]) exampleT =
      findRow exStore exampleT ∧
    (upsertBatch exStore [⟨5, exMeasNull⟩]).filter
      (fun row => row.key == exampleT) =
      exStore.filter (fun row => row.key == exampleT) :=
  upsert_frame_untouched exStore [⟨5, exMeasNull⟩] exampleT (by decide)

end Ingest
